import Mathlib

/-!
Verification development for the llvm-html tool (llvm-html.cpp).

The tool's own logic is shallowly embedded here:
* decimal rendering of module indices (`std::to_string`),
* the CSS inliner `inlineCSS`, built on `std::regex_replace` with the
  ECMAScript pattern `<link.*>` (modelled exactly: leftmost match start,
  greedy `.*` that stops at line terminators, replacement of every
  non-overlapping occurrence, `$`-escapes in the replacement text),
* the recursive debug-location formatter `printDebugLoc`,
* the annotation writer's `printInfoComment` callback,
* the diagnostic handler `handleDiagnostics`,
* the driver's argument check and per-module output-filename resolution.

Strings are modelled as `String`/`List Char`; streams as accumulated
text or operation lists.
-/

/-! ### Decimal rendering (`std::to_string`) -/

/-- The character for a decimal digit `d < 10`, i.e. `'0' + d`. -/
def digitChar (d : Nat) : Char := Char.ofNat (48 + d)

/-- Decimal digits of `n`, most significant first.  Fuel-based recursion;
`fuel ≥ n` always suffices since the value shrinks by `/ 10` each step. -/
def natToDigitsAux : Nat → Nat → List Char
  | 0, n => [digitChar (n % 10)]
  | fuel + 1, n =>
    if n < 10 then [digitChar n]
    else natToDigitsAux fuel (n / 10) ++ [digitChar (n % 10)]

/-- Decimal digit list of `n` (model of `std::to_string`). -/
def natToDigits (n : Nat) : List Char := natToDigitsAux n n

/-- Model of `std::to_string` for unsigned values. -/
def natToString (n : Nat) : String := String.mk (natToDigits n)

/-- Numeric value recovered from a digit list (used to prove injectivity). -/
def digitsVal (l : List Char) : Nat :=
  l.foldl (fun a c => a * 10 + (c.toNat - 48)) 0

/-! ### CSS inliner: `std::regex_replace(Out, std::regex("<link.*>"), ...)`

ECMAScript semantics: `.` matches any character except a line terminator,
`.*` is greedy (so a match extends to the last `>` on the line of the
`<link`), matching restarts after each match, and every non-overlapping
occurrence is replaced.  The replacement text is interpreted with the
match-format escapes `$$`, `$&`, the backtick escape (text before the
match, i.e. since the previous match for `regex_replace`), and the
quote escape (text after the match); any other `$`-sequence is kept
literally (group references are implementation-defined here since the
pattern has no capture groups). -/

/-- ECMAScript line terminators relevant for byte strings. -/
def isLineTerm (c : Char) : Bool := c = '\n' || c = '\r'

/-- Characters the ECMAScript `.` can match. -/
def nonTerm (c : Char) : Bool := !(isLineTerm c)

/-- Does the text begin with the literal `<link`? -/
def startsWithLink : List Char → Bool
  | c0 :: c1 :: c2 :: c3 :: c4 :: _ =>
    decide (c0 = '<' ∧ c1 = 'l' ∧ c2 = 'i' ∧ c3 = 'n' ∧ c4 = 'k')
  | _ => false

/-- Index of the last `'>'` in a list, if any. -/
def lastGtIdx : List Char → Option Nat
  | [] => none
  | c :: cs =>
    match lastGtIdx cs with
    | some j => some (j + 1)
    | none => if c = '>' then some 0 else none

/-- The greedy match of `<link.*>` starting at the head of the text, if
any: the literal `<link` followed by everything up to the last `'>'`
before the next line terminator.  Returns the matched text and the rest. -/
def matchAtHead : List Char → Option (List Char × List Char)
  | c0 :: c1 :: c2 :: c3 :: c4 :: rest =>
    if c0 = '<' ∧ c1 = 'l' ∧ c2 = 'i' ∧ c3 = 'n' ∧ c4 = 'k' then
      match lastGtIdx (rest.takeWhile nonTerm) with
      | some j =>
        some (c0 :: c1 :: c2 :: c3 :: c4 :: rest.take (j + 1), rest.drop (j + 1))
      | none => none
    else none
  | _ => none

/-- Leftmost match of `<link.*>` in the text: the unmatched text before
the match, the matched text, and the rest after the match. -/
def findLinkMatch : List Char → Option (List Char × List Char × List Char)
  | [] => none
  | c :: cs =>
    match matchAtHead (c :: cs) with
    | some (m, r) => some ([], m, r)
    | none =>
      match findLinkMatch cs with
      | some (p, m, r) => some (c :: p, m, r)
      | none => none

/-- Interpret the replacement text of `regex_replace`: `$$` is a literal
`$`, `$&` the matched text, backtick-escape the text between the previous
match and this one, quote-escape the text after the match; anything else
after `$` is kept literally. -/
def formatRepl (matched preText postText : List Char) : List Char → List Char
  | [] => []
  | c :: rest =>
    if c = '$' then
      match rest with
      | [] => ['$']
      | d :: t =>
        if d = '$' then '$' :: formatRepl matched preText postText t
        else if d = '&' then matched ++ formatRepl matched preText postText t
        else if d = Char.ofNat 96 then preText ++ formatRepl matched preText postText t
        else if d = Char.ofNat 39 then postText ++ formatRepl matched preText postText t
        else '$' :: d :: formatRepl matched preText postText t
    else c :: formatRepl matched preText postText rest

/-- One `regex_replace` pass, fuelled.  Each found match is replaced and
scanning resumes after it; a match consumes at least five characters, so
`fuel = length of the subject` never runs out before the search fails. -/
def regexReplaceLinksFuel (fmt : List Char) : Nat → List Char → List Char
  | 0, s => s
  | fuel + 1, s =>
    match findLinkMatch s with
    | none => s
    | some (p, m, r) => p ++ formatRepl m p r fmt ++ regexReplaceLinksFuel fmt fuel r

/-- Model of `std::regex_replace(s, std::regex("<link.*>"), fmt)`. -/
def regexReplaceLinks (fmt s : List Char) : List Char :=
  regexReplaceLinksFuel fmt s.length s

/-- The characters of the literal `"<style> \n"`. -/
def styleOpenChars : List Char := ['<', 's', 't', 'y', 'l', 'e', '>', ' ', '\n']

/-- The characters of the literal `"</style> \n"`. -/
def styleCloseChars : List Char := ['<', '/', 's', 't', 'y', 'l', 'e', '>', ' ', '\n']

/-- The `ReplacementString` built by `inlineCSS`:
`"<style> \n" + CSS + "</style> \n"`. -/
def cssReplacement (css : List Char) : List Char :=
  styleOpenChars ++ css ++ styleCloseChars

/-- Model of `inlineCSS(OS, Out, CSS)`: the text written to the output
stream, namely `regex_replace` of the body with the style block. -/
def inlineCSS (out css : List Char) : List Char :=
  regexReplaceLinks (cssReplacement css) out

/-- No position of the text begins with the literal `<link`. -/
def noLinkStart : List Char → Bool
  | [] => true
  | c :: t => !startsWithLink (c :: t) && noLinkStart t

/-- No position of the text starts a `<link.*>` match. -/
def noMatchAnywhere : List Char → Bool
  | [] => true
  | c :: t => (matchAtHead (c :: t)).isNone && noMatchAnywhere t

/-- Propositional form: no suffix of the text starts a match. -/
def NoMatchIn (s : List Char) : Prop :=
  ∀ i : Nat, matchAtHead (List.drop i s) = none

/-! ### Debug-location formatter (`printDebugLoc`) -/

/-- A source location: line, column, and an optional inlined-at parent.
The inductive structure makes the inlining chain finite by construction,
matching the library invariant on `DebugLoc`. -/
inductive DebugLocT where
  | base (line col : Nat)
  | inlined (line col : Nat) (parent : DebugLocT)
deriving DecidableEq

/-- Model of `printDebugLoc`: `line:col`, then `@` and the recursive
rendering of the inlined-at parent when present. -/
def printDebugLoc : DebugLocT → String
  | DebugLocT.base l c => natToString l ++ ":" ++ natToString c
  | DebugLocT.inlined l c p =>
    natToString l ++ ":" ++ natToString c ++ "@" ++ printDebugLoc p

/-- The line/column pairs along the inlined-at chain, innermost first. -/
def chainToList : DebugLocT → List (Nat × Nat)
  | DebugLocT.base l c => [(l, c)]
  | DebugLocT.inlined l c p => (l, c) :: chainToList p

/-- Join rendered locations with `@` separators. -/
def joinAmp : List String → String
  | [] => ""
  | [s] => s
  | s :: rest => s ++ "@" ++ joinAmp rest

/-! ### Annotation writer (`CommentWriter::printInfoComment`) -/

/-- Operations emitted on the formatted output stream. -/
inductive OutOp where
  | padToColumn (col : Nat)
  | text (s : String)
deriving DecidableEq

/-- The facts about a printed value that `printInfoComment` inspects:
void-ness of its type, use count, printed type, whether it is an
instruction, its debug location, and the variable of a debug-declare or
debug-value intrinsic (the latter two only consulted for instructions,
mirroring the `dyn_cast` chain). -/
structure ValueInfo where
  isVoid : Bool
  numUses : Nat
  typeStr : String
  isInstruction : Bool
  debugLoc : Option DebugLocT
  dbgDeclareVar : Option String
  dbgValueVar : Option String

/-- The `"; [#uses=N type=T]"` comment text. -/
def usesTypeText (v : ValueInfo) : String :=
  "; [#uses=" ++ natToString v.numUses ++ " type=" ++ v.typeStr ++ "]"

/-- Model of `CommentWriter::printInfoComment`: the operations emitted on
the stream for one value.  `Padded` tracking follows the source: the
non-void branch pads and sets it, the debug-line branch pads only if not
already padded, and the debug-variable branches pad only if not already
padded (without updating the flag, as in the source). -/
def printInfoComment (v : ValueInfo) : List OutOp :=
  let step1 : List OutOp × Bool :=
    if v.isVoid = false then
      ([OutOp.padToColumn 50, OutOp.text (usesTypeText v)], true)
    else ([], false)
  if v.isInstruction = true then
    let step2 : List OutOp × Bool :=
      match v.debugLoc with
      | some dl =>
        (step1.1 ++
          (if step1.2 = false then [OutOp.padToColumn 50, OutOp.text (";")] else []) ++
          [OutOp.text (" [debug line = " ++ printDebugLoc dl ++ "]")], true)
      | none => step1
    match v.dbgDeclareVar with
    | some nm =>
      step2.1 ++
        (if step2.2 = false then [OutOp.padToColumn 50, OutOp.text (";")] else []) ++
        [OutOp.text (" [debug variable = " ++ nm ++ "]")]
    | none =>
      match v.dbgValueVar with
      | some nm =>
        step2.1 ++
          (if step2.2 = false then [OutOp.padToColumn 50, OutOp.text (";")] else []) ++
          [OutOp.text (" [debug variable = " ++ nm ++ "]")]
      | none => step2.1
  else step1.1

/-- Number of pad operations in an emitted sequence. -/
def padCount (ops : List OutOp) : Nat :=
  ops.countP fun op =>
    match op with
    | OutOp.padToColumn _ => true
    | OutOp.text _ => false

/-! ### Diagnostic handler (`LLVMHtmlDiagnosticHandler::handleDiagnostics`) -/

/-- Diagnostic severities (`DS_Error`, `DS_Warning`, `DS_Remark`, `DS_Note`). -/
inductive Severity where
  | error
  | warning
  | remark
  | note
deriving DecidableEq

/-- The label printed for a severity; `WithColor::error/warning/note`
print `"error: "`, `"warning: "`, `"note: "` (colored), while the remark
case prints a plain `"remark: "`. -/
def severityLabel : Severity → String
  | Severity.error => "error: "
  | Severity.warning => "warning: "
  | Severity.remark => "remark: "
  | Severity.note => "note: "

/-- Whether the severity label is emitted through `WithColor` (color-coded). -/
def severityColored : Severity → Bool
  | Severity.remark => false
  | _ => true

/-- Outcome of one `handleDiagnostics` call: the text written to the
error stream, the exit code if the process terminates, and the handler's
return value when it does continue. -/
structure DiagOutcome where
  output : String
  exitsWith : Option Nat
  handlerReturn : Bool

/-- Model of `handleDiagnostics`: print prefix, severity label and the
message, then `exit(1)` exactly on error severity. -/
def handleDiagnostics (progName msg : String) (sev : Severity) : DiagOutcome :=
  ⟨progName ++ ": " ++ severityLabel sev ++ msg ++ "\n",
   if sev = Severity.error then some 1 else none,
   true⟩

/-! ### Driver: argument check and output-filename resolution -/

/-- `StringRef::endswith(".bc")` on the input filename. -/
def endsWithBC (s : String) : Bool :=
  decide (3 ≤ s.data.length) && decide (s.data.drop (s.data.length - 3) = ['.', 'b', 'c'])

/-- `StringRef::drop_back(3)`. -/
def dropBack3 (s : String) : String :=
  String.mk (s.data.take (s.data.length - 3))

/-- Model of the `FinalFilename` computation for module `i` of `n` in one
input file: the `-o` value, overridden to `"-"` under `-disable-output`;
if still unspecified, inferred from the input name (stdout for stdin,
else the input with a `.bc` suffix stripped, the zero-based index added
for multi-module files, and `.html` appended); an explicitly specified
name also receives the index for multi-module files. -/
def finalFilename (outputFilename : String) (dontPrint : Bool)
    (inputFilename : String) (n i : Nat) : String :=
  let f := if dontPrint then "-" else outputFilename
  if f = "" then
    if inputFilename = "-" then "-"
    else
      let base := if endsWithBC inputFilename then dropBack3 inputFilename else inputFilename
      let base := if 1 < n then base ++ "." ++ natToString i else base
      base ++ ".html"
  else if 1 < n then f ++ "." ++ natToString i else f

/-- The condition under which the driver warns that only single-module
files can be written to stdout: the `-o` value is `"-"` and the container
holds more than one module. -/
def warnsStdoutMulti (outputFilename : String) (n : Nat) : Bool :=
  decide (outputFilename = "-") && decide (1 < n)

/-- Result of the input/output argument check at the top of `main`. -/
inductive ArgCheck where
  | proceed (inputs : List String)
  | fail (code : Nat)

/-- Model of the argument check: no positional inputs default to stdin;
more than one input combined with an explicit `-o` fails with exit
status 1 before any input is processed. -/
def checkInputs (inputs : List String) (outputFilename : String) : ArgCheck :=
  if inputs.length < 1 then ArgCheck.proceed ["-"]
  else if 1 < inputs.length ∧ outputFilename ≠ "" then ArgCheck.fail 1
  else ArgCheck.proceed inputs

/-- The output filenames the driver resolves over all inputs and their
embedded modules (given the module count of each input), or the exit code
when the argument check fails; on failure no file is opened or written. -/
def resolvedOutputNames (inputs : List String) (outputFilename : String)
    (dontPrint : Bool) (modsOf : String → Nat) : Except Nat (List String) :=
  match checkInputs inputs outputFilename with
  | ArgCheck.fail c => Except.error c
  | ArgCheck.proceed ins =>
    Except.ok (ins.flatMap fun inp =>
      (List.range (modsOf inp)).map fun i =>
        finalFilename outputFilename dontPrint inp (modsOf inp) i)

/-- What the per-module pipeline does, as controlled by
`--print-thinlto-index-only`, `--disable-output` and the presence of a
summary index: whether the module is lazily loaded and materialized,
whether the HTML body is printed, and whether the summary index is
printed. -/
structure ModuleRender where
  materialized : Bool
  bodyPrinted : Bool
  indexPrinted : Bool

/-- Model of the per-module pipeline control flow (lines 214-272). -/
def processModule (printThinLTOIndexOnly dontPrint hasSummary : Bool) : ModuleRender :=
  ⟨!printThinLTOIndexOnly,
   !dontPrint && !printThinLTOIndexOnly,
   !dontPrint && hasSummary⟩

/-- The text committed to one module's output file: the summary index
rendering (when printed) followed by the CSS-inlined HTML body (empty
when the module is not printed). -/
def moduleFileContent (printThinLTOIndexOnly dontPrint hasSummary : Bool)
    (body css indexText : List Char) : List Char :=
  (if !dontPrint && hasSummary then indexText else []) ++
    inlineCSS (if !dontPrint && !printThinLTOIndexOnly then body else []) css

/-! ### Helper lemmas: decimal rendering -/

/-- Reading back the numeric value of a digit character. -/
theorem digitChar_toNat (d : Nat) (h : d < 10) : (digitChar d).toNat = 48 + d := by
  interval_cases d <;> decide

/-- `digitsVal` over a snoc. -/
theorem digitsVal_append_digit (l : List Char) (c : Char) :
    digitsVal (l ++ [c]) = digitsVal l * 10 + (c.toNat - 48) := by
  simp [digitsVal, List.foldl_append]

/-- With enough fuel, `digitsVal` recovers the rendered number. -/
theorem digitsVal_natToDigitsAux (fuel : Nat) :
    ∀ n, n ≤ fuel → digitsVal (natToDigitsAux fuel n) = n := by
  induction fuel with
  | zero =>
    intro n hn
    have h0 : n = 0 := Nat.le_zero.mp hn
    subst h0
    simp [natToDigitsAux, digitsVal, digitChar_toNat]
  | succ f ih =>
    intro n hn
    by_cases h : n < 10
    · rw [natToDigitsAux, if_pos h]
      show digitsVal [digitChar n] = n
      simp [digitsVal]
      rw [digitChar_toNat n h]
      omega
    · rw [natToDigitsAux, if_neg h]
      rw [digitsVal_append_digit]
      have hlt : n / 10 < n := Nat.div_lt_self (by omega) (by omega)
      rw [ih (n / 10) (by omega)]
      rw [digitChar_toNat (n % 10) (Nat.mod_lt _ (by omega))]
      omega

/-- `std::to_string` digit lists are injective. -/
theorem natToDigits_inj (m n : Nat) (h : natToDigits m = natToDigits n) : m = n := by
  have hm := digitsVal_natToDigitsAux m m le_rfl
  have hn := digitsVal_natToDigitsAux n n le_rfl
  rw [← hm, ← hn]
  rw [show natToDigitsAux m m = natToDigitsAux n n from h]

/-- `std::to_string` is injective. -/
theorem natToString_inj (m n : Nat) (h : natToString m = natToString n) : m = n := by
  apply natToDigits_inj
  have hd : (natToString m).data = (natToString n).data := by rw [h]
  exact hd

/-- `String` append acts as list append on the data. -/
theorem string_data_append (s t : String) : (s ++ t).data = s.data ++ t.data := by
  cases s
  cases t
  rfl

/-- Appending the empty string is the identity. -/
theorem string_append_empty (s : String) : s ++ "" = s := by
  cases s with
  | mk d =>
    show String.mk (d ++ []) = String.mk d
    rw [List.append_nil]

/-- A common prefix, a dot, a rendered index: equal strings force equal indices. -/
theorem string_dot_index_inj (b : String) (i j : Nat)
    (h : b ++ "." ++ natToString i = b ++ "." ++ natToString j) : i = j := by
  have hd := congrArg String.data h
  rw [string_data_append, string_data_append, string_data_append, string_data_append] at hd
  rw [List.append_assoc, List.append_assoc] at hd
  have h1 := List.append_cancel_left hd
  have h2 := List.append_cancel_left h1
  exact natToDigits_inj i j h2

/-- As above, with a common literal suffix after the index. -/
theorem string_dot_index_suffix_inj (b t : String) (i j : Nat)
    (h : b ++ "." ++ natToString i ++ t = b ++ "." ++ natToString j ++ t) : i = j := by
  have hd := congrArg String.data h
  rw [string_data_append, string_data_append, string_data_append,
    string_data_append, string_data_append, string_data_append] at hd
  rw [List.append_assoc, List.append_assoc, List.append_assoc, List.append_assoc] at hd
  have h1 := List.append_cancel_left hd
  have h2 := List.append_cancel_left h1
  have h3 := List.append_cancel_right h2
  exact natToDigits_inj i j h3

/-! ### Claims about output-filename resolution (C2, C6, C10) -/

/-- The three non-stdin branches of `finalFilename` for multi-module files. -/
theorem finalFilename_multi_shape (o : String) (dp : Bool) (inp : String) (n k : Nat)
    (hn : 1 < n) (hst : ¬(o = "" ∧ dp = false ∧ inp = "-")) :
    (dp = true ∧ finalFilename o dp inp n k = "-" ++ "." ++ natToString k) ∨
    (dp = false ∧ o ≠ "" ∧ finalFilename o dp inp n k = o ++ "." ++ natToString k) ∨
    (dp = false ∧ o = "" ∧ inp ≠ "-" ∧ finalFilename o dp inp n k =
      (if endsWithBC inp then dropBack3 inp else inp) ++ "." ++ natToString k ++ ".html") := by
  cases dp with
  | true =>
    left
    refine ⟨rfl, ?_⟩
    rw [finalFilename]
    simp only [if_true, hn, if_pos]
    rw [if_neg (by decide : ¬(("-" : String) = ""))]
  | false =>
    by_cases ho : o = ""
    · right; right
      have hinp : inp ≠ "-" := fun hh => hst ⟨ho, rfl, hh⟩
      refine ⟨rfl, ho, hinp, ?_⟩
      rw [finalFilename]
      subst ho
      simp only [Bool.false_eq_true, if_false, hn, if_pos, if_neg hinp]
    · right; left
      refine ⟨rfl, ho, ?_⟩
      rw [finalFilename]
      simp only [Bool.false_eq_true, if_false, hn, if_pos, if_neg ho]

/-- C2 (amended): for a container with more than one embedded module, as
long as the output destination is not the one inferred from standard
input (input `"-"` with no `-o` and printing enabled), the resolved
output filenames of distinct module indices are distinct, and each
contains the zero-based module index preceded by a dot. -/
theorem finalFilename_multi_distinct (o : String) (dp : Bool) (inp : String) (n i j : Nat)
    (hn : 1 < n) (hij : i ≠ j)
    (hst : ¬(o = "" ∧ dp = false ∧ inp = "-")) :
    finalFilename o dp inp n i ≠ finalFilename o dp inp n j ∧
    ∃ s₁ s₂ : String, finalFilename o dp inp n i = s₁ ++ "." ++ natToString i ++ s₂ := by
  rcases finalFilename_multi_shape o dp inp n i hn hst with ⟨hdp, ei⟩ | ⟨hdp, ho, ei⟩ | ⟨hdp, ho, hinp, ei⟩
  · rcases finalFilename_multi_shape o dp inp n j hn hst with ⟨_, ej⟩ | ⟨hdp2, _, _⟩ | ⟨hdp2, _, _, _⟩
    · refine ⟨?_, "-", "", by rw [ei, string_append_empty]⟩
      rw [ei, ej]
      intro hh
      exact hij (string_dot_index_inj _ _ _ hh)
    · rw [hdp] at hdp2; exact absurd hdp2 (by decide)
    · rw [hdp] at hdp2; exact absurd hdp2 (by decide)
  · rcases finalFilename_multi_shape o dp inp n j hn hst with ⟨hdp2, _⟩ | ⟨_, _, ej⟩ | ⟨_, ho2, _, _⟩
    · rw [hdp] at hdp2; exact absurd hdp2 (by decide)
    · refine ⟨?_, o, "", by rw [ei, string_append_empty]⟩
      rw [ei, ej]
      intro hh
      exact hij (string_dot_index_inj _ _ _ hh)
    · exact absurd ho2 ho
  · rcases finalFilename_multi_shape o dp inp n j hn hst with ⟨hdp2, _⟩ | ⟨_, ho2, _⟩ | ⟨_, _, _, ej⟩
    · rw [hdp] at hdp2; exact absurd hdp2 (by decide)
    · exact absurd ho ho2
    · refine ⟨?_, if endsWithBC inp then dropBack3 inp else inp, ".html", by rw [ei]⟩
      rw [ei, ej]
      intro hh
      exact hij (string_dot_index_suffix_inj _ _ _ _ hh)

/-- C2 counterexample: a multi-module container read from standard input
with no explicit `-o` resolves every module to the same name `"-"`,
with no index suffix, so the resolved names are not pairwise distinct. -/
theorem finalFilename_stdin_collision :
    finalFilename ("") false ("-") 2 0 = finalFilename ("") false ("-") 2 1 ∧
    finalFilename ("") false ("-") 2 0 = "-" := by
  constructor
  · rfl
  · rfl

/-- C2 witness: the amended statement at a concrete input. -/
theorem finalFilename_multi_distinct_witness :
    ((1 : Nat) < 2 ∧ (0 : Nat) ≠ 1 ∧
      ¬(("out" : String) = "" ∧ false = false ∧ ("in.bc" : String) = "-")) ∧
    (finalFilename ("out") false ("in.bc") 2 0 ≠ finalFilename ("out") false ("in.bc") 2 1 ∧
     ∃ s₁ s₂ : String, finalFilename ("out") false ("in.bc") 2 0 = s₁ ++ "." ++ natToString 0 ++ s₂) :=
  ⟨⟨by decide, by decide, by decide⟩,
   finalFilename_multi_distinct ("out") false ("in.bc") 2 0 1 (by decide) (by decide) (by decide)⟩

/-- C6: for a single-module file with no explicit output name (and output
not disabled), the derived output name is the input name with a trailing
`.bc` stripped when present and `.html` appended. -/
theorem finalFilename_inferred_single (inp : String) (i : Nat) (h : inp ≠ "-") :
    finalFilename ("") false inp 1 i =
      (if endsWithBC inp then dropBack3 inp else inp) ++ ".html" := by
  rw [finalFilename]
  simp only [Bool.false_eq_true, if_false, if_true, if_neg h, lt_self_iff_false]

/-- C6 witness. -/
theorem finalFilename_inferred_single_witness :
    ("x.bc" : String) ≠ "-" ∧ finalFilename ("") false ("x.bc") 1 0 = "x.html" :=
  ⟨by decide, by rw [finalFilename_inferred_single ("x.bc") 0 (by decide)]; decide⟩

/-- C10: when the input is the stdin sentinel `"-"` and no `-o` is given,
the resolved destination is `"-"` for every module of every container
(no index suffix even for multi-module containers), and the multi-module
stdout warning fires only for an explicit `-o -`, never for the empty
`-o` of the inferred-stdout case. -/
theorem finalFilename_stdin_stdout (n i : Nat) :
    finalFilename ("") false ("-") n i = "-" ∧
    warnsStdoutMulti ("") n = false ∧
    warnsStdoutMulti ("-") 2 = true := by
  refine ⟨?_, ?_, by decide⟩
  · rw [finalFilename]
    simp only [Bool.false_eq_true, if_false, if_true]
  · rw [warnsStdoutMulti]
    rw [show decide (("" : String) = "-") = false from by decide]
    rw [Bool.false_and]

/-! ### Claim about the argument check (C3) -/

/-- C3: more than one positional input together with an explicit `-o`
makes the driver fail with exit status 1 before any input is processed;
the error result carries no resolved output names, so nothing is written. -/
theorem resolvedOutputNames_multi_explicit_fails (inputs : List String) (o : String)
    (dp : Bool) (modsOf : String → Nat)
    (hmany : 1 < inputs.length) (ho : o ≠ "") :
    resolvedOutputNames inputs o dp modsOf = Except.error 1 := by
  rw [resolvedOutputNames, checkInputs]
  rw [if_neg (by omega : ¬(inputs.length < 1)), if_pos ⟨hmany, ho⟩]

/-- C3 witness. -/
theorem resolvedOutputNames_multi_explicit_fails_witness :
    ((1 : Nat) < ([("a"), ("b")] : List String).length ∧ ("c" : String) ≠ "") ∧
    resolvedOutputNames [("a"), ("b")] ("c") false (fun _ => 1) = Except.error 1 :=
  ⟨⟨by decide, by decide⟩,
   resolvedOutputNames_multi_explicit_fails _ _ _ _ (by decide) (by decide)⟩

/-! ### Claim about the diagnostic handler (C5) -/

/-- C5: every diagnostic is formatted to the error stream as the program
name, the severity label and the message; the label is color-coded for
error/warning/note and plain for remark; and the process exits with
status 1 exactly on error severity, while all other severities report
and continue (the handler returns true). -/
theorem handleDiagnostics_spec (progName msg : String) (sev : Severity) :
    (handleDiagnostics progName msg sev).output =
      progName ++ ": " ++ severityLabel sev ++ msg ++ "\n" ∧
    ((handleDiagnostics progName msg sev).exitsWith = some 1 ↔ sev = Severity.error) ∧
    (severityColored sev = true ↔ sev ≠ Severity.remark) ∧
    (handleDiagnostics progName msg sev).handlerReturn = true := by
  refine ⟨rfl, ?_, ?_, rfl⟩ <;> cases sev <;> simp [handleDiagnostics, severityColored]

/-! ### Claim about `--print-thinlto-index-only` (C8) -/

/-- C8: with `--print-thinlto-index-only` (and output enabled), no module
is materialized and no HTML body is printed for any embedded module; for
a container carrying a summary index, the committed file content is
exactly the rendered summary index, with no rendered body. -/
theorem printThinLTOIndexOnly_spec (body css indexText : List Char) :
    (processModule true false true).materialized = false ∧
    (processModule true false true).bodyPrinted = false ∧
    (processModule true false true).indexPrinted = true ∧
    moduleFileContent true false true body css indexText = indexText := by
  refine ⟨rfl, rfl, rfl, ?_⟩
  show indexText ++ inlineCSS [] css = indexText
  rw [show inlineCSS [] css = [] from rfl, List.append_nil]

/-! ### Claim about the debug-location formatter (C9) -/

/-- The inlining chain is never empty. -/
theorem chainToList_ne_nil (d : DebugLocT) : chainToList d ≠ [] := by
  cases d <;> simp [chainToList]

/-- C9: the formatter totally renders any finite acyclic inlining chain
(chains are finite by construction in the model, matching the library
invariant) as the `@`-joined `line:col` pairs of the chain: `line:col`
first, then `@` and the parent's recursive rendering when present. -/
theorem printDebugLoc_chain (d : DebugLocT) :
    printDebugLoc d =
      joinAmp ((chainToList d).map fun lc => natToString lc.1 ++ ":" ++ natToString lc.2) := by
  induction d with
  | base l c => rfl
  | inlined l c p ih =>
    rw [printDebugLoc, chainToList, List.map_cons]
    have hne : (chainToList p).map
        (fun lc => natToString lc.1 ++ ":" ++ natToString lc.2) ≠ [] := by
      intro hh
      exact chainToList_ne_nil p (List.map_eq_nil_iff.mp hh)
    cases hM : (chainToList p).map (fun lc => natToString lc.1 ++ ":" ++ natToString lc.2) with
    | nil => exact absurd hM hne
    | cons y ys =>
      rw [joinAmp]
      · rw [← hM, ← ih]
      · intro hh
        exact List.noConfusion hh

/-! ### Claim about the annotation writer (C4) -/

/-- C4: for every value handed to `printInfoComment`: a non-void value
pads to column 50 first and gets the `; [#uses=N type=T]` comment; an
instruction with a debug location gets the `[debug line = ...]` fragment;
a debug-declare (or, otherwise, debug-value) intrinsic further gets the
`[debug variable = name]` fragment; and at most one pad operation is
emitted no matter how many fragments follow. -/
theorem printInfoComment_spec (v : ValueInfo) :
    (v.isVoid = false →
      (printInfoComment v).head? = some (OutOp.padToColumn 50) ∧
      OutOp.text (usesTypeText v) ∈ printInfoComment v) ∧
    (v.isInstruction = true → ∀ dl, v.debugLoc = some dl →
      OutOp.text (" [debug line = " ++ printDebugLoc dl ++ "]") ∈ printInfoComment v) ∧
    (v.isInstruction = true → ∀ nm, v.dbgDeclareVar = some nm →
      OutOp.text (" [debug variable = " ++ nm ++ "]") ∈ printInfoComment v) ∧
    (v.isInstruction = true → v.dbgDeclareVar = none → ∀ nm, v.dbgValueVar = some nm →
      OutOp.text (" [debug variable = " ++ nm ++ "]") ∈ printInfoComment v) ∧
    padCount (printInfoComment v) ≤ 1 := by
  obtain ⟨iv, nu, ts, ii, dL, dD, dV⟩ := v
  cases iv <;> cases ii <;> cases dL <;> cases dD <;> cases dV <;>
    simp [printInfoComment, padCount, List.countP_cons]

/-- C4 witness: a non-void instruction with a debug location and a
debug-declare variable, evaluated through the theorem. -/
theorem printInfoComment_spec_witness :
    (printInfoComment ⟨false, 2, ("i32"), true, some (DebugLocT.base 3 4), some ("x"), none⟩).head? =
      some (OutOp.padToColumn 50) ∧
    OutOp.text (" [debug line = " ++ printDebugLoc (DebugLocT.base 3 4) ++ "]") ∈
      printInfoComment ⟨false, 2, ("i32"), true, some (DebugLocT.base 3 4), some ("x"), none⟩ ∧
    OutOp.text (" [debug variable = " ++ "x" ++ "]") ∈
      printInfoComment ⟨false, 2, ("i32"), true, some (DebugLocT.base 3 4), some ("x"), none⟩ ∧
    padCount (printInfoComment ⟨false, 2, ("i32"), true, some (DebugLocT.base 3 4), some ("x"), none⟩) ≤ 1 := by
  have h := printInfoComment_spec ⟨false, 2, ("i32"), true, some (DebugLocT.base 3 4), some ("x"), none⟩
  exact ⟨(h.1 rfl).1, h.2.1 rfl _ rfl, h.2.2.1 rfl _ rfl, h.2.2.2.2⟩

/-! ### Helper lemmas: the `<link.*>` matcher -/

/-- No match starts at a head that is not `<`. -/
theorem matchAtHead_head_ne (c : Char) (t : List Char) (hc : ¬c = '<') :
    matchAtHead (c :: t) = none := by
  match t with
  | [] => rfl
  | [_] => rfl
  | [_, _] => rfl
  | [_, _, _] => rfl
  | a :: b :: d :: e :: rest =>
    rw [matchAtHead]
    exact if_neg fun hh => hc hh.1

/-- No match starts where `<link` does not. -/
theorem startsWithLink_false_matchAtHead (s : List Char) (h : startsWithLink s = false) :
    matchAtHead s = none := by
  match s with
  | [] => rfl
  | [_] => rfl
  | [_, _] => rfl
  | [_, _, _] => rfl
  | [_, _, _, _] => rfl
  | c0 :: c1 :: c2 :: c3 :: c4 :: rest =>
    rw [startsWithLink] at h
    rw [matchAtHead]
    exact if_neg (of_decide_eq_false h)

/-- `startsWithLink` only looks at the first five characters. -/
theorem startsWithLink_append_ge5 (u v : List Char) (h : 5 ≤ u.length) :
    startsWithLink (u ++ v) = startsWithLink u := by
  match u with
  | [] => simp at h
  | [_] => simp at h
  | [_, _] => simp at h
  | [_, _, _] => simp at h
  | [_, _, _, _] => simp at h
  | c0 :: c1 :: c2 :: c3 :: c4 :: rest => rfl

/-- A nonempty text of at most four characters followed by a text whose
head is `<` cannot begin with `<link`: the `<` of the second part lands
on one of the positions that must hold `l`, `i`, `n` or `k`. -/
theorem startsWithLink_short_append (u v : List Char) (hne : u ≠ [])
    (hlen : u.length ≤ 4) (hv : ∃ w, v = '<' :: w) :
    startsWithLink (u ++ v) = false := by
  obtain ⟨w, rfl⟩ := hv
  match u with
  | [] => exact absurd rfl hne
  | [a] =>
    match w with
    | [] => rfl
    | [_] => rfl
    | [_, _] => rfl
    | x :: y :: z :: t =>
      simp only [List.cons_append, List.nil_append]
      rw [startsWithLink]
      exact decide_eq_false fun hh => absurd hh.2.1 (by decide)
  | [a, b] =>
    match w with
    | [] => rfl
    | [_] => rfl
    | x :: y :: t =>
      simp only [List.cons_append, List.nil_append]
      rw [startsWithLink]
      exact decide_eq_false fun hh => absurd hh.2.2.1 (by decide)
  | [a, b, c] =>
    match w with
    | [] => rfl
    | x :: t =>
      simp only [List.cons_append, List.nil_append]
      rw [startsWithLink]
      exact decide_eq_false fun hh => absurd hh.2.2.2.1 (by decide)
  | [a, b, c, d] =>
    simp only [List.cons_append, List.nil_append]
    rw [startsWithLink]
    exact decide_eq_false fun hh => absurd hh.2.2.2.2 (by decide)
  | _ :: _ :: _ :: _ :: _ :: _ => simp at hlen

/-- `takeWhile` over an append whose first part fully satisfies the test. -/
theorem takeWhile_append_all (p : Char → Bool) (u v : List Char)
    (h : ∀ c ∈ u, p c = true) : (u ++ v).takeWhile p = u ++ v.takeWhile p := by
  induction u with
  | nil => rfl
  | cons a t ih =>
    have ha : p a = true := h a (List.mem_cons_self a t)
    simp only [List.cons_append]
    rw [List.takeWhile_cons_of_pos ha, ih fun c hc => h c (List.mem_cons_of_mem a hc)]

/-- `takeWhile` over an append whose first part contains a failure never
reaches the second part. -/
theorem takeWhile_append_stop (p : Char → Bool) (u v : List Char)
    (h : ∃ c ∈ u, p c = false) : (u ++ v).takeWhile p = u.takeWhile p := by
  induction u with
  | nil =>
    obtain ⟨c, hc, _⟩ := h
    exact absurd hc (List.not_mem_nil c)
  | cons a t ih =>
    by_cases ha : p a = true
    · obtain ⟨c, hc, hcf⟩ := h
      rcases List.mem_cons.mp hc with rfl | hct
      · rw [ha] at hcf
        exact Bool.noConfusion hcf
      · simp only [List.cons_append]
        rw [List.takeWhile_cons_of_pos ha, List.takeWhile_cons_of_pos ha]
        rw [ih ⟨c, hct, hcf⟩]
    · simp only [List.cons_append]
      rw [List.takeWhile_cons_of_neg ha, List.takeWhile_cons_of_neg ha]

/-- Up to the length of the `takeWhile` part, `take` agrees with it. -/
theorem takeWhile_take_eq (p : Char → Bool) (l : List Char) :
    ∀ k, k ≤ (l.takeWhile p).length → l.take k = (l.takeWhile p).take k := by
  induction l with
  | nil => intro k _; rfl
  | cons a t ih =>
    intro k hk
    by_cases ha : p a = true
    · rw [List.takeWhile_cons_of_pos ha] at hk ⊢
      cases k with
      | zero => rfl
      | succ k' =>
        rw [List.take_succ_cons, List.take_succ_cons]
        rw [ih k' (by simpa using hk)]
    · rw [List.takeWhile_cons_of_neg ha] at hk
      simp only [List.length_nil, Nat.le_zero] at hk
      subst hk
      rfl

/-- A successful `lastGtIdx` splits the list at the last `'>'`. -/
theorem lastGtIdx_decomp (l : List Char) :
    ∀ j, lastGtIdx l = some j → ∃ u w, l = u ++ '>' :: w ∧ u.length = j := by
  induction l with
  | nil =>
    intro j h
    simp [lastGtIdx] at h
  | cons c cs ih =>
    intro j h
    rw [lastGtIdx] at h
    cases hcs : lastGtIdx cs with
    | some j' =>
      rw [hcs] at h
      injection h with hj
      obtain ⟨u, w, hlw, hu⟩ := ih j' hcs
      refine ⟨c :: u, w, by rw [hlw]; rfl, ?_⟩
      simp [hu, ← hj]
    | none =>
      rw [hcs] at h
      by_cases hc : c = '>'
      · rw [if_pos hc] at h
        injection h with hj
        refine ⟨[], cs, by rw [hc]; rfl, ?_⟩
        simp [← hj]
      · rw [if_neg hc] at h
        exact absurd h (by simp)

/-- A list containing `'>'` has a last `'>'`. -/
theorem lastGtIdx_isSome_of_mem (l : List Char) (h : '>' ∈ l) : lastGtIdx l ≠ none := by
  induction l with
  | nil => exact absurd h (List.not_mem_nil _)
  | cons c cs ih =>
    rw [lastGtIdx]
    cases hcs : lastGtIdx cs with
    | some j => simp
    | none =>
      rcases List.mem_cons.mp h with hc | hc
      · rw [if_pos hc.symm]
        simp
      · exact absurd hcs (ih hc)

/-- Shape of a successful head match: the subject splits as the match
followed by the rest, and the matched text is `<link` followed by
line-terminator-free text whose last character region contains a `'>'`. -/
theorem matchAtHead_shape (s m r : List Char) (h : matchAtHead s = some (m, r)) :
    s = m ++ r ∧
    ∃ m5, m = '<' :: 'l' :: 'i' :: 'n' :: 'k' :: m5 ∧
      (∀ c ∈ m5, nonTerm c = true) ∧ '>' ∈ m5 := by
  match s with
  | [] => simp [matchAtHead] at h
  | [_] => simp [matchAtHead] at h
  | [_, _] => simp [matchAtHead] at h
  | [_, _, _] => simp [matchAtHead] at h
  | [_, _, _, _] => simp [matchAtHead] at h
  | c0 :: c1 :: c2 :: c3 :: c4 :: rest =>
    rw [matchAtHead] at h
    by_cases hc : c0 = '<' ∧ c1 = 'l' ∧ c2 = 'i' ∧ c3 = 'n' ∧ c4 = 'k'
    · rw [if_pos hc] at h
      obtain ⟨hc0, hc1, hc2, hc3, hc4⟩ := hc
      subst hc0; subst hc1; subst hc2; subst hc3; subst hc4
      cases hG : lastGtIdx (rest.takeWhile nonTerm) with
      | none =>
        rw [hG] at h
        exact absurd h (by simp)
      | some j =>
        rw [hG] at h
        injection h with hpair
        rw [Prod.mk.injEq] at hpair
        obtain ⟨hm, hr⟩ := hpair
        subst hm; subst hr
        constructor
        · simp [List.take_append_drop]
        · refine ⟨rest.take (j + 1), rfl, ?_, ?_⟩
          · obtain ⟨u, w, hseg, hu⟩ := lastGtIdx_decomp _ _ hG
            have hlenseg : j + 1 ≤ (rest.takeWhile nonTerm).length := by
              rw [hseg]
              simp only [List.length_append, List.length_cons, hu]
              omega
            have htk : rest.take (j + 1) = (rest.takeWhile nonTerm).take (j + 1) :=
              takeWhile_take_eq nonTerm rest (j + 1) hlenseg
            intro ch hch
            rw [htk] at hch
            exact List.mem_takeWhile_imp (List.mem_of_mem_take hch)
          · obtain ⟨u, w, hseg, hu⟩ := lastGtIdx_decomp _ _ hG
            have hlenseg : j + 1 ≤ (rest.takeWhile nonTerm).length := by
              rw [hseg]
              simp only [List.length_append, List.length_cons, hu]
              omega
            have htk : rest.take (j + 1) = (rest.takeWhile nonTerm).take (j + 1) :=
              takeWhile_take_eq nonTerm rest (j + 1) hlenseg
            rw [htk, hseg, List.take_append_eq_append_take]
            rw [List.take_of_length_le (by omega : u.length ≤ j + 1)]
            rw [hu, show j + 1 - j = 1 from by omega]
            simp
    · rw [if_neg hc] at h
      exact absurd h (by simp)

/-- A successful `findLinkMatch` splits the subject, matches at the split
point, and admits no earlier match (leftmost semantics). -/
theorem findLinkMatch_decomp (s : List Char) :
    ∀ p m r, findLinkMatch s = some (p, m, r) →
      s = p ++ (m ++ r) ∧ matchAtHead (m ++ r) = some (m, r) ∧
        ∀ i, i < p.length → matchAtHead (List.drop i s) = none := by
  induction s with
  | nil =>
    intro p m r h
    simp [findLinkMatch] at h
  | cons c cs ih =>
    intro p m r h
    rw [findLinkMatch] at h
    cases hA : matchAtHead (c :: cs) with
    | some pr =>
      rw [hA] at h
      obtain ⟨m0, r0⟩ := pr
      simp only [Option.some.injEq, Prod.mk.injEq] at h
      obtain ⟨hp, hm, hr⟩ := h
      subst hp; subst hm; subst hr
      have hsh := matchAtHead_shape _ _ _ hA
      refine ⟨by simpa using hsh.1, ?_, ?_⟩
      · rw [← hsh.1]
        exact hA
      · intro i hi
        simp at hi
    | none =>
      rw [hA] at h
      cases hF : findLinkMatch cs with
      | none =>
        rw [hF] at h
        exact absurd h (by simp)
      | some t =>
        rw [hF] at h
        obtain ⟨p', m', r'⟩ := t
        simp only [Option.some.injEq, Prod.mk.injEq] at h
        obtain ⟨hp, hm, hr⟩ := h
        subst hp; subst hm; subst hr
        obtain ⟨hs, hmh, hleft⟩ := ih p' m' r' hF
        refine ⟨by rw [hs]; rfl, hmh, ?_⟩
        intro i hi
        cases i with
        | zero => simpa using hA
        | succ i' =>
          have hd : List.drop (i' + 1) (c :: cs) = List.drop i' cs := rfl
          rw [hd]
          exact hleft i' (by simp only [List.length_cons] at hi; omega)

/-- A failing search means no suffix starts a match, and conversely. -/
theorem findLinkMatch_none_iff (s : List Char) : findLinkMatch s = none ↔ NoMatchIn s := by
  induction s with
  | nil =>
    constructor
    · intro _ i
      rw [List.drop_nil]
      rfl
    · intro _
      rfl
  | cons c cs ih =>
    rw [findLinkMatch]
    constructor
    · intro h i
      cases hA : matchAtHead (c :: cs) with
      | some pr =>
        rw [hA] at h
        obtain ⟨m, r⟩ := pr
        exact absurd h (by simp)
      | none =>
        rw [hA] at h
        cases i with
        | zero => simpa using hA
        | succ i' =>
          cases hF : findLinkMatch cs with
          | some t =>
            rw [hF] at h
            obtain ⟨p, m, r⟩ := t
            exact absurd h (by simp)
          | none =>
            simpa using (ih.mp hF) i'
    · intro h
      have h1 : matchAtHead (c :: cs) = none := h 0
      have h2 : findLinkMatch cs = none := ih.mpr fun i => h (i + 1)
      simp only [h1, h2]

/-- The Boolean scan `noMatchAnywhere` implies the propositional form. -/
theorem noMatchAnywhere_noMatchIn (s : List Char) (h : noMatchAnywhere s = true) :
    NoMatchIn s := by
  induction s with
  | nil =>
    intro i
    rw [List.drop_nil]
    rfl
  | cons c cs ih =>
    rw [noMatchAnywhere, Bool.and_eq_true] at h
    intro i
    cases i with
    | zero => simpa [Option.isNone_iff_eq_none] using h.1
    | succ i' => exact ih h.2 i'

/-- With no match anywhere, the fuelled replacement is the identity. -/
theorem regexReplaceLinksFuel_of_none (fmt : List Char) (fuel : Nat) (s : List Char)
    (h : findLinkMatch s = none) : regexReplaceLinksFuel fmt fuel s = s := by
  cases fuel with
  | zero => rfl
  | succ f =>
    rw [regexReplaceLinksFuel]
    simp only [h]

/-- With no match anywhere, `regex_replace` is the identity. -/
theorem regexReplaceLinks_of_none (fmt s : List Char) (h : findLinkMatch s = none) :
    regexReplaceLinks fmt s = s :=
  regexReplaceLinksFuel_of_none fmt s.length s h

/-- A replacement text without `'$'` is interpreted literally. -/
theorem formatRepl_no_dollar (matched preText postText : List Char) :
    ∀ fmt, '$' ∉ fmt → formatRepl matched preText postText fmt = fmt := by
  intro fmt
  induction fmt with
  | nil =>
    intro _
    rfl
  | cons c rest ih =>
    intro h
    have hc : ¬c = '$' := fun hh => h (by rw [hh]; exact List.mem_cons_self _ _)
    rw [formatRepl.eq_def]
    simp only [if_neg hc]
    rw [ih fun hm => h (List.mem_cons_of_mem c hm)]

/-- The style block contains no `'$'` when the CSS text does not. -/
theorem cssReplacement_no_dollar (css : List Char) (h : '$' ∉ css) :
    '$' ∉ cssReplacement css := by
  intro hmem
  rw [cssReplacement] at hmem
  rcases List.mem_append.mp hmem with h1 | h2
  · rcases List.mem_append.mp h1 with h1a | h1b
    · exact absurd h1a (by decide)
    · exact h h1b
  · exact absurd h2 (by decide)

/-- Peel one character off a no-match region. -/
theorem noMatchIn_cons (c : Char) (t : List Char)
    (h0 : matchAtHead (c :: t) = none) (ht : NoMatchIn t) : NoMatchIn (c :: t) := by
  intro i
  cases i with
  | zero => simpa using h0
  | succ i' => exact ht i'

/-- Compose a no-match region from a first part (no match can start in
it, in context) and a no-match tail. -/
theorem noMatchIn_append (p X : List Char)
    (hp : ∀ i, i < p.length → matchAtHead (List.drop i p ++ X) = none)
    (hX : NoMatchIn X) : NoMatchIn (p ++ X) := by
  intro i
  rw [List.drop_append_eq_append_drop]
  by_cases h : i < p.length
  · rw [show i - p.length = 0 from by omega, List.drop_zero]
    exact hp i h
  · rw [List.drop_eq_nil_of_le (by omega : p.length ≤ i), List.nil_append]
    exact hX (i - p.length)

/-- Replacing the text after a failed match start by any text with head
`<` cannot create a match there: either the position is too close to the
end of its part, or its line already ended before the old match text
(which is line-terminator free and carries a `>`), so the searched line
segment is unchanged. -/
theorem matchAtHead_transfer (u m r Y : List Char) (hne : u ≠ [])
    (hm : ∃ m5, m = '<' :: 'l' :: 'i' :: 'n' :: 'k' :: m5 ∧
      (∀ c ∈ m5, nonTerm c = true) ∧ '>' ∈ m5)
    (hY : ∃ w, Y = '<' :: w)
    (hnone : matchAtHead (u ++ (m ++ r)) = none) :
    matchAtHead (u ++ Y) = none := by
  by_cases hlen : u.length ≤ 4
  · exact startsWithLink_false_matchAtHead _ (startsWithLink_short_append u Y hne hlen hY)
  · match u with
    | [] => exact absurd rfl hne
    | [_] => exact absurd hlen (by simp)
    | [_, _] => exact absurd hlen (by simp)
    | [_, _, _] => exact absurd hlen (by simp)
    | [_, _, _, _] => exact absurd hlen (by simp)
    | c0 :: c1 :: c2 :: c3 :: c4 :: u5 =>
      simp only [List.cons_append] at hnone ⊢
      by_cases hc : c0 = '<' ∧ c1 = 'l' ∧ c2 = 'i' ∧ c3 = 'n' ∧ c4 = 'k'
      · rw [matchAtHead, if_pos hc] at hnone
        rw [matchAtHead, if_pos hc]
        obtain ⟨m5, hm5eq, hm5nt, hm5gt⟩ := hm
        have hterm : ∃ tc ∈ u5, nonTerm tc = false := by
          by_contra hstop
          push_neg at hstop
          have hall : ∀ tc ∈ u5, nonTerm tc = true := by
            intro tc htc
            have hx := hstop tc htc
            revert hx
            cases nonTerm tc <;> simp
          have hmnt : ∀ ch ∈ m, nonTerm ch = true := by
            rw [hm5eq]
            intro ch hch
            simp only [List.mem_cons] at hch
            rcases hch with rfl | rfl | rfl | rfl | rfl | hch
            · decide
            · decide
            · decide
            · decide
            · decide
            · exact hm5nt ch hch
          have htw : (u5 ++ (m ++ r)).takeWhile nonTerm
              = u5 ++ (m ++ r.takeWhile nonTerm) := by
            rw [takeWhile_append_all nonTerm u5 (m ++ r) hall]
            rw [takeWhile_append_all nonTerm m r hmnt]
          have hgtm : '>' ∈ m := by
            rw [hm5eq]
            simp [hm5gt]
          have hgt : '>' ∈ (u5 ++ (m ++ r)).takeWhile nonTerm := by
            rw [htw]
            exact List.mem_append.mpr (Or.inr (List.mem_append.mpr (Or.inl hgtm)))
          cases hG : lastGtIdx ((u5 ++ (m ++ r)).takeWhile nonTerm) with
          | some j =>
            rw [hG] at hnone
            exact absurd hnone (by simp)
          | none => exact lastGtIdx_isSome_of_mem _ hgt hG
        have e1 : (u5 ++ (m ++ r)).takeWhile nonTerm = u5.takeWhile nonTerm :=
          takeWhile_append_stop nonTerm u5 (m ++ r) hterm
        have e2 : (u5 ++ Y).takeWhile nonTerm = u5.takeWhile nonTerm :=
          takeWhile_append_stop nonTerm u5 Y hterm
        rw [e1] at hnone
        rw [e2]
        cases hG : lastGtIdx (u5.takeWhile nonTerm) with
        | some j =>
          rw [hG] at hnone
          exact absurd hnone (by simp)
        | none => rfl
      · rw [matchAtHead, if_neg hc]

/-- No match can start inside the closing `</style> \n` text. -/
theorem noMatchIn_styleClose (r : List Char) (hr : NoMatchIn r) :
    NoMatchIn (styleCloseChars ++ r) := by
  rw [styleCloseChars]
  simp only [List.cons_append, List.nil_append]
  refine noMatchIn_cons _ _ ?_ (noMatchIn_cons _ _ ?_ (noMatchIn_cons _ _ ?_
    (noMatchIn_cons _ _ ?_ (noMatchIn_cons _ _ ?_ (noMatchIn_cons _ _ ?_
    (noMatchIn_cons _ _ ?_ (noMatchIn_cons _ _ ?_ (noMatchIn_cons _ _ ?_
    (noMatchIn_cons _ _ ?_ hr)))))))))
  · rw [matchAtHead]
    exact if_neg (by decide)
  · exact matchAtHead_head_ne _ _ (by decide)
  · exact matchAtHead_head_ne _ _ (by decide)
  · exact matchAtHead_head_ne _ _ (by decide)
  · exact matchAtHead_head_ne _ _ (by decide)
  · exact matchAtHead_head_ne _ _ (by decide)
  · exact matchAtHead_head_ne _ _ (by decide)
  · exact matchAtHead_head_ne _ _ (by decide)
  · exact matchAtHead_head_ne _ _ (by decide)
  · exact matchAtHead_head_ne _ _ (by decide)

/-- No match can start inside the opening `<style> \n` text. -/
theorem noMatchIn_styleOpen (t : List Char) (ht : NoMatchIn t) :
    NoMatchIn (styleOpenChars ++ t) := by
  rw [styleOpenChars]
  simp only [List.cons_append, List.nil_append]
  refine noMatchIn_cons _ _ ?_ (noMatchIn_cons _ _ ?_ (noMatchIn_cons _ _ ?_
    (noMatchIn_cons _ _ ?_ (noMatchIn_cons _ _ ?_ (noMatchIn_cons _ _ ?_
    (noMatchIn_cons _ _ ?_ (noMatchIn_cons _ _ ?_ (noMatchIn_cons _ _ ?_ ht))))))))
  · rw [matchAtHead]
    exact if_neg (by decide)
  · exact matchAtHead_head_ne _ _ (by decide)
  · exact matchAtHead_head_ne _ _ (by decide)
  · exact matchAtHead_head_ne _ _ (by decide)
  · exact matchAtHead_head_ne _ _ (by decide)
  · exact matchAtHead_head_ne _ _ (by decide)
  · exact matchAtHead_head_ne _ _ (by decide)
  · exact matchAtHead_head_ne _ _ (by decide)
  · exact matchAtHead_head_ne _ _ (by decide)

/-- CSS text that nowhere starts `<link`, followed by a no-match text
with head `<`, is a no-match region. -/
theorem noMatchIn_cssPart (css Z : List Char) (hl : noLinkStart css = true)
    (hZh : ∃ w, Z = '<' :: w) (hZ : NoMatchIn Z) : NoMatchIn (css ++ Z) := by
  induction css with
  | nil => exact hZ
  | cons c t ih =>
    rw [noLinkStart, Bool.and_eq_true] at hl
    have ht := ih hl.2
    have hf : startsWithLink ((c :: t) ++ Z) = false := by
      by_cases hlen : (c :: t).length ≤ 4
      · exact startsWithLink_short_append _ _ (by simp) hlen hZh
      · rw [startsWithLink_append_ge5 _ _ (by omega)]
        simpa using hl.1
    have hnone := startsWithLink_false_matchAtHead _ hf
    simp only [List.cons_append] at hnone ⊢
    exact noMatchIn_cons _ _ hnone ht

/-! ### Claims about the CSS inliner (C1, C7) -/

/-- C7: a body that nowhere starts a stylesheet-link placeholder is
passed through the CSS inliner unchanged, whatever the CSS text: the
substitution is an identity, not an error. -/
theorem inlineCSS_no_placeholder (out css : List Char) (h : noMatchAnywhere out = true) :
    inlineCSS out css = out :=
  regexReplaceLinks_of_none _ _
    ((findLinkMatch_none_iff out).mpr (noMatchAnywhere_noMatchIn out h))

/-- C7 witness. -/
theorem inlineCSS_no_placeholder_witness :
    noMatchAnywhere ['h', 'e', 'l', 'l', 'o'] = true ∧
    inlineCSS ['h', 'e', 'l', 'l', 'o'] ['x'] = ['h', 'e', 'l', 'l', 'o'] :=
  ⟨by decide, inlineCSS_no_placeholder _ _ (by decide)⟩

/-- C1 (amended): the inliner substitutes every placeholder occurrence,
not only the first.  When the body contains exactly one occurrence (a
match whose remainder admits no further match) and the CSS text is
non-empty, contains no `'$'` and nowhere starts `<link`, the emitted
output is the body with that occurrence replaced by the literal style
block wrapping the CSS text, and the output contains no occurrence of
the placeholder pattern. -/
theorem inlineCSS_single_placeholder (body css p m r : List Char)
    (hb : findLinkMatch body = some (p, m, r))
    (hr : findLinkMatch r = none)
    (hcssne : css ≠ [])
    (hd : '$' ∉ css)
    (hl : noLinkStart css = true) :
    inlineCSS body css = p ++ cssReplacement css ++ r ∧
    findLinkMatch (inlineCSS body css) = none := by
  obtain ⟨hsplit, hmh, hleft⟩ := findLinkMatch_decomp body p m r hb
  have heq : inlineCSS body css = p ++ cssReplacement css ++ r := by
    have hlen1 : ∃ f, body.length = f + 1 := by
      cases hbody : body with
      | nil =>
        rw [hbody] at hb
        simp [findLinkMatch] at hb
      | cons a t => exact ⟨t.length, rfl⟩
    obtain ⟨f, hf⟩ := hlen1
    rw [inlineCSS, regexReplaceLinks, hf, regexReplaceLinksFuel]
    simp only [hb]
    rw [formatRepl_no_dollar m p r (cssReplacement css) (cssReplacement_no_dollar css hd)]
    rw [regexReplaceLinksFuel_of_none _ _ _ hr]
  refine ⟨heq, ?_⟩
  rw [heq, findLinkMatch_none_iff, List.append_assoc]
  have hrN : NoMatchIn r := (findLinkMatch_none_iff r).mp hr
  have hZh : ∃ w, styleCloseChars ++ r = '<' :: w :=
    ⟨'/' :: 's' :: 't' :: 'y' :: 'l' :: 'e' :: '>' :: ' ' :: '\n' :: r, rfl⟩
  have hcssZ : NoMatchIn (css ++ (styleCloseChars ++ r)) :=
    noMatchIn_cssPart css (styleCloseChars ++ r) hl hZh (noMatchIn_styleClose r hrN)
  have hB : NoMatchIn (cssReplacement css ++ r) := by
    rw [cssReplacement]
    simp only [List.append_assoc]
    exact noMatchIn_styleOpen _ hcssZ
  apply noMatchIn_append
  · intro i hi
    have hne : List.drop i p ≠ [] := by
      intro hnil
      have hlnil := congrArg List.length hnil
      simp only [List.length_drop, List.length_nil] at hlnil
      omega
    obtain ⟨hsA, m5sh⟩ := matchAtHead_shape _ _ _ hmh
    have horig : matchAtHead (List.drop i p ++ (m ++ r)) = none := by
      have h1 := hleft i hi
      rw [hsplit, List.drop_append_eq_append_drop,
        show i - p.length = 0 from by omega, List.drop_zero] at h1
      exact h1
    have hYh : ∃ w, cssReplacement css ++ r = '<' :: w :=
      ⟨((['s', 't', 'y', 'l', 'e', '>', ' ', '\n'] ++ css) ++ styleCloseChars) ++ r, rfl⟩
    exact matchAtHead_transfer (List.drop i p) m r (cssReplacement css ++ r) hne m5sh hYh horig
  · exact hB

/-- C1 witness: a body with exactly one placeholder and plain CSS. -/
theorem inlineCSS_single_placeholder_witness :
    (findLinkMatch ['<', 'l', 'i', 'n', 'k', ' ', 'x', '>', '\n', 'z'] =
      some (([] : List Char), ['<', 'l', 'i', 'n', 'k', ' ', 'x', '>'], ['\n', 'z']) ∧
     findLinkMatch ['\n', 'z'] = none ∧
     (['a'] : List Char) ≠ [] ∧ '$' ∉ (['a'] : List Char) ∧ noLinkStart ['a'] = true) ∧
    (inlineCSS ['<', 'l', 'i', 'n', 'k', ' ', 'x', '>', '\n', 'z'] ['a'] =
      [] ++ cssReplacement ['a'] ++ ['\n', 'z'] ∧
     findLinkMatch (inlineCSS ['<', 'l', 'i', 'n', 'k', ' ', 'x', '>', '\n', 'z'] ['a']) = none) := by
  refine ⟨⟨by decide, by decide, by decide, by decide, by decide⟩, ?_⟩
  exact inlineCSS_single_placeholder ['<', 'l', 'i', 'n', 'k', ' ', 'x', '>', '\n', 'z'] ['a']
    [] ['<', 'l', 'i', 'n', 'k', ' ', 'x', '>'] ['\n', 'z'] (by decide) (by decide) (by decide)
    (by decide) (by decide)

/-- C1 counterexample: (i) with two placeholders the inliner replaces
both, never only the first; (ii) with one placeholder and non-empty CSS
text that itself contains a link tag, a placeholder occurrence remains
in the output; (iii) CSS text containing `$&` is not wrapped literally
into the style block. -/
theorem inlineCSS_counterexample :
    (inlineCSS ['<', 'l', 'i', 'n', 'k', ' ', 'a', '>', '\n',
        '<', 'l', 'i', 'n', 'k', ' ', 'b', '>', '\n'] ['B'] ≠
      cssReplacement ['B'] ++ ['\n', '<', 'l', 'i', 'n', 'k', ' ', 'b', '>', '\n']) ∧
    (inlineCSS ['<', 'l', 'i', 'n', 'k', ' ', 'a', '>', '\n',
        '<', 'l', 'i', 'n', 'k', ' ', 'b', '>', '\n'] ['B'] =
      cssReplacement ['B'] ++ ['\n'] ++ cssReplacement ['B'] ++ ['\n']) ∧
    (findLinkMatch (inlineCSS ['<', 'l', 'i', 'n', 'k', ' ', 'a', '>', '\n', 'x']
        ['<', 'l', 'i', 'n', 'k', ' ', 'c', '>']) ≠ none) ∧
    (inlineCSS ['<', 'l', 'i', 'n', 'k', ' ', 'a', '>', '\n', 'x'] ['$', '&'] ≠
      cssReplacement ['$', '&'] ++ ['\n', 'x']) :=
  ⟨by decide, by decide, by decide, by decide⟩
